import Mathlib

/-!
Verification of the tag-reconciliation engine of `check_windows_containers.py`
(windows-container-tracker).

The Python program is shallowly embedded: the registry (network) is an oracle
`Registry` giving each repository its available-tag listing (`get_tags`, which
returns `[]` on any failure) and each repository/tag pair its manifest-fetch
outcome (`get_tag_info`, which returns a metadata dict, the string sentinel
`"NOT_FOUND"` on HTTP 404, or `None` on any other failure — modelled as
`FetchResult.found / .notFound / .unknown`).

Python dicts are modelled as association lists with first-key lookup and
update-in-place-or-append assignment (`dictGet` / `dictInsert`), which matches
Python dict insertion-order semantics.  Python sets are modelled as
duplicate-free lists built by `setInsert` (membership and `Nodup` facts are
what the claims need; Python set iteration order is unspecified).

A per-repository state in the Python code is a single dict holding the tag →
TagInfo entries together with a reserved `"not_found"` key holding a list; the
code always reads and writes them separately (`repo_state.get("not_found", [])`,
the copy `{k: v for k, v in repo_state.items() if k != "not_found"}`, and the
final `new_repo_state["not_found"] = sorted(...)`), so the embedding separates
them into the two fields of `RepoState`.
-/

/-- First-match lookup in an association list (Python `dict.get`). -/
def dictGet {α : Type} (m : List (String × α)) (k : String) : Option α :=
  match m with
  | [] => none
  | (k', v) :: rest => if k' = k then some v else dictGet rest k

/-- Python dict assignment `m[k] = v`: update in place if the key exists,
else append. -/
def dictInsert {α : Type} (m : List (String × α)) (k : String) (v : α) :
    List (String × α) :=
  match m with
  | [] => [(k, v)]
  | (k', v') :: rest =>
    if k' = k then (k, v) :: rest else (k', v') :: dictInsert rest k v

/-- Python `set.add`: no-op when the element is present, else append. -/
def setInsert (s : List String) (x : String) : List String :=
  if x ∈ s then s else s ++ [x]

/-- `set.update` with an iterable: add each element in order. -/
def addAll (s : List String) (l : List String) : List String :=
  l.foldl setInsert s

/-- Code-point lexicographic comparison of character lists, as Python's
`sorted` compares strings. -/
def charListLe : List Char → List Char → Bool
  | [], _ => true
  | _ :: _, [] => false
  | a :: as, b :: bs => if a = b then charListLe as bs else decide (a < b)

/-- The order Python's `sorted` uses on tag names. -/
def lexLe (a b : String) : Prop := charListLe a.data b.data = true

instance : DecidableRel lexLe := fun a b =>
  inferInstanceAs (Decidable (charListLe a.data b.data = true))

/-- Manifest metadata, `{"digest": ..., "last_modified": ...}` built by
`get_tag_info` from the two response headers (each may be absent). -/
structure TagInfo where
  digest : Option String
  last_modified : Option String
deriving DecidableEq, Repr

/-- Outcome of `get_tag_info(repo, tag)`: a metadata dict, the `"NOT_FOUND"`
sentinel on HTTP 404, or `None` on any other failure. -/
inductive FetchResult where
  | found (info : TagInfo)
  | notFound
  | unknown
deriving DecidableEq, Repr

/-- The registry oracle, fixed for one run: `tags` is the result of
`get_tags(repo)` (empty on failure), `fetch` the result of
`get_tag_info(repo, tag)`. -/
structure Registry where
  tags : String → List String
  fetch : String → String → FetchResult

/-- A normalized repository entry `{"name": ..., "tags": ...}` as consumed by
`check_images`. -/
structure RepoEntry where
  name : String
  tags : Option (List String)
deriving DecidableEq, Repr

/-- Per-repository persisted state: the tag → TagInfo entries of the Python
state dict, plus the list stored under its reserved `"not_found"` key. -/
structure RepoState where
  tagMap : List (String × TagInfo)
  not_found : List String
deriving DecidableEq, Repr

/-- The persisted mapping repository name → per-repository state. -/
abbrev GlobalState : Type := List (String × RepoState)

/-- A change event appended to `updates`: `[NEW TAG]` or `[UPDATED DIGEST]`
lines (modelled structurally; the Python code renders them as strings). -/
inductive Update where
  | newTag (repo tag : String) (digest : Option String)
  | updatedDigest (repo tag : String) (digest oldDigest : Option String)
deriving DecidableEq, Repr

/-- Repository named in a change event. -/
def Update.repoOf : Update → String
  | .newTag r _ _ => r
  | .updatedDigest r _ _ _ => r

/-- Tag named in a change event. -/
def Update.tagOf : Update → String
  | .newTag _ t _ => t
  | .updatedDigest _ t _ _ => t

/-! ### fnmatch

`expand_wildcard_tags` tests `fnmatch.fnmatch(t, pat)`.  `fnmatch` translates
the shell glob into a matcher (`*`, `?`, `[...]` classes with optional leading
`!` negation and `a-b` ranges; an unterminated `[` is a literal; on POSIX the
case normalization is the identity).  The translation is embedded as a token
compiler plus matcher. -/

/-- One compiled glob token. -/
inductive GlobTok where
  | lit (c : Char)
  | anyChar
  | star
  | cls (neg : Bool) (cs : List Char)
deriving DecidableEq, Repr

/-- Scan to the closing `]` of a bracket expression, returning the collected
class characters and the remainder. -/
def findClose (acc : List Char) : List Char → Option (List Char × List Char)
  | [] => none
  | ']' :: rest => some (acc.reverse, rest)
  | c :: rest => findClose (c :: acc) rest

/-- Bracket scan after an optional leading `!`: a `]` in first position is a
literal class member. -/
def splitClassAux (p : List Char) : Option (List Char × List Char) :=
  match p with
  | ']' :: p2 => findClose [']'] p2
  | _ => findClose [] p

/-- Parse the body of a bracket expression (the characters after `[`),
returning (negated?, class characters, rest of the pattern), or `none` when
the bracket is unterminated (then `[` is a literal). -/
def splitClass (p : List Char) : Option (Bool × List Char × List Char) :=
  match p with
  | '!' :: p1 => (splitClassAux p1).map (fun pr => (true, pr.1, pr.2))
  | _ => (splitClassAux p).map (fun pr => (false, pr.1, pr.2))

/-- Character-class membership with `a-b` ranges; other characters are
literals. -/
def classMatch : List Char → Char → Bool
  | [], _ => false
  | a :: '-' :: b :: rest2, c =>
    (decide (a ≤ c) && decide (c ≤ b)) || classMatch rest2 c
  | a :: rest, c => a == c || classMatch rest c

/-- Glob-pattern compiler (fuelled by the pattern length so that the
bracket scan, which consumes several characters at once, stays structurally
recursive; each step consumes at least one character, so the fuel suffices). -/
def translateGlobFuel : Nat → List Char → List GlobTok
  | 0, _ => []
  | _ + 1, [] => []
  | fuel + 1, '*' :: rest => GlobTok.star :: translateGlobFuel fuel rest
  | fuel + 1, '?' :: rest => GlobTok.anyChar :: translateGlobFuel fuel rest
  | fuel + 1, '[' :: rest =>
    match splitClass rest with
    | some (neg, cs, rest2) => GlobTok.cls neg cs :: translateGlobFuel fuel rest2
    | none => GlobTok.lit '[' :: translateGlobFuel fuel rest
  | fuel + 1, c :: rest => GlobTok.lit c :: translateGlobFuel fuel rest

/-- Compile a glob pattern to tokens. -/
def translateGlob (p : List Char) : List GlobTok :=
  translateGlobFuel p.length p

/-- Token matcher; `star` matches any suffix (the `.*` of the translated
regex). -/
def tokMatch : List GlobTok → List Char → Bool
  | [], s => s.isEmpty
  | GlobTok.star :: ps, s => s.tails.any (fun s2 => tokMatch ps s2)
  | GlobTok.anyChar :: ps, s =>
    match s with
    | [] => false
    | _ :: s2 => tokMatch ps s2
  | GlobTok.lit a :: ps, s =>
    match s with
    | [] => false
    | c :: s2 => a == c && tokMatch ps s2
  | GlobTok.cls neg cs :: ps, s =>
    match s with
    | [] => false
    | c :: s2 => (classMatch cs c != neg) && tokMatch ps s2

/-- `fnmatch.fnmatch(name, pat)` (POSIX case normalization is the
identity). -/
def fnmatch (name pat : String) : Bool :=
  tokMatch (translateGlob pat.data) name.data

/-! ### Tag selection (`expand_wildcard_tags`) -/

/-- Python `"*" in pat or "?" in pat`. -/
def hasWildcard (pat : String) : Bool :=
  pat.data.contains '*' || pat.data.contains '?'

/-- The pattern loop of `expand_wildcard_tags`, building the `selected` set. -/
def expandGo (available_tags : List String) :
    List String → List String → List String
  | [], selected => selected
  | pat :: rest, selected =>
    if hasWildcard pat then
      expandGo available_tags rest
        (addAll selected (available_tags.filter (fun t => fnmatch t pat)))
    else if pat ∈ available_tags then
      expandGo available_tags rest (setInsert selected pat)
    else
      expandGo available_tags rest selected

/-- `expand_wildcard_tags(available_tags, patterns)`: with no patterns the
whole listing is returned; otherwise wildcard patterns select the matching
available tags and exact patterns select themselves only when available. -/
def expand_wildcard_tags (available_tags patterns : List String) : List String :=
  if patterns.isEmpty then available_tags
  else expandGo available_tags patterns []

/-! ### Reconciliation (`check_images`) -/

/-- Python truthiness of the optional `tags` entry value
(`if specified_tags`). -/
def specifiedTruthy : Option (List String) → Bool
  | some (_ :: _) => true
  | _ => false

/-- `old_state.get(repo_name, {})` split into the two `RepoState` fields. -/
def priorOf (old_state : GlobalState) (name : String) : RepoState :=
  (dictGet old_state name).getD ⟨[], []⟩

/-- The selected tag base:
`expand_wildcard_tags(available_tags, specified_tags) if specified_tags else
available_tags`. -/
def baseTags (reg : Registry) (e : RepoEntry) : List String :=
  if specifiedTruthy e.tags then
    expand_wildcard_tags (reg.tags e.name) (e.tags.getD [])
  else reg.tags e.name

/-- `tags_to_check` after the not-found filter:
`[t for t in tags_to_check if t not in not_found]` (where `not_found` is the
set built from the prior state's list). -/
def tagsToCheck (reg : Registry) (old_state : GlobalState) (e : RepoEntry) :
    List String :=
  (baseTags reg e).filter
    (fun t => !((priorOf old_state e.name).not_found.dedup.contains t))

/-- Loop accumulator of the per-tag loop in `check_images`: the new state
dict's tag entries, the `new_not_found` set, and the `updates` list.  (The
Python `found_this_run` set is written and never read, so it is omitted.) -/
structure LoopAcc where
  new_repo_state : List (String × TagInfo)
  new_not_found : List String
  updates : List Update
deriving DecidableEq, Repr

/-- The body of the `for tag in tags_to_check` loop of `check_images`.
`repo_state_map` is the prior state's tag entries, read for `old_tag`
(`repo_state.get(tag)`); a successful fetch removes the tag from
`new_not_found` when present, emits `[NEW TAG]` when there was no prior entry
and `[UPDATED DIGEST]` on a digest change, and records the new info; a 404
adds the tag to `new_not_found`; any other failure changes nothing. -/
def checkTagStep (reg : Registry) (repo_name : String)
    (repo_state_map : List (String × TagInfo)) (acc : LoopAcc) (tag : String) :
    LoopAcc :=
  let old_tag := dictGet repo_state_map tag
  match reg.fetch repo_name tag with
  | FetchResult.found i =>
    let nf :=
      if tag ∈ acc.new_not_found then acc.new_not_found.erase tag
      else acc.new_not_found
    let ups :=
      match old_tag with
      | none => acc.updates ++ [Update.newTag repo_name tag i.digest]
      | some ot =>
        if i.digest ≠ ot.digest then
          acc.updates ++ [Update.updatedDigest repo_name tag i.digest ot.digest]
        else acc.updates
    ⟨dictInsert acc.new_repo_state tag i, nf, ups⟩
  | FetchResult.notFound =>
    ⟨acc.new_repo_state, setInsert acc.new_not_found tag, acc.updates⟩
  | FetchResult.unknown => acc

/-- The `for tag in tags_to_check` loop of `check_images`. -/
def checkTags (reg : Registry) (repo_name : String)
    (repo_state_map : List (String × TagInfo)) :
    List String → LoopAcc → LoopAcc
  | [], acc => acc
  | tag :: rest, acc =>
    checkTags reg repo_name repo_state_map rest
      (checkTagStep reg repo_name repo_state_map acc tag)

/-- One iteration of the `for repo_entry in repos` loop: runs the tag loop
over `tagsToCheck`, prunes `new_not_found` against the available listing, and
sorts it into the stored list.  Returns the repository's new state and the
change events this entry appended. -/
def checkRepoEntry (reg : Registry) (old_state : GlobalState) (e : RepoEntry) :
    RepoState × List Update :=
  let repo_state := priorOf old_state e.name
  let available_tags := reg.tags e.name
  let acc := checkTags reg e.name repo_state.tagMap (tagsToCheck reg old_state e)
    ⟨repo_state.tagMap, repo_state.not_found.dedup, []⟩
  let new_not_found := acc.new_not_found.filter (fun t => available_tags.contains t)
  (⟨acc.new_repo_state, List.insertionSort lexLe new_not_found⟩, acc.updates)

/-- The repository loop: builds `new_state` by dict assignment per entry and
concatenates the per-entry change events (the Python code appends into one
shared `updates` list, which is the same thing). -/
def checkImagesGo (reg : Registry) (old_state : GlobalState) :
    List RepoEntry → GlobalState → List Update → GlobalState × List Update
  | [], ns, ups => (ns, ups)
  | e :: rest, ns, ups =>
    let r := checkRepoEntry reg old_state e
    checkImagesGo reg old_state rest (dictInsert ns e.name r.1) (ups ++ r.2)

/-- `check_images(repos, old_state)` against a fixed registry oracle. -/
def check_images (reg : Registry) (repos : List RepoEntry)
    (old_state : GlobalState) : GlobalState × List Update :=
  checkImagesGo reg old_state repos [] []

/-! ### Association-list and set lemmas -/

theorem dictGet_insert_self {α : Type} (m : List (String × α)) (k : String) (v : α) :
    dictGet (dictInsert m k v) k = some v := by
  induction m with
  | nil => simp [dictInsert, dictGet]
  | cons p rest ih =>
    obtain ⟨k', v'⟩ := p
    by_cases h : k' = k
    · simp [dictInsert, dictGet, h]
    · simp [dictInsert, dictGet, h, ih]

theorem dictGet_insert_ne {α : Type} (m : List (String × α)) (k k' : String) (v : α)
    (h : k' ≠ k) : dictGet (dictInsert m k v) k' = dictGet m k' := by
  have hk : k ≠ k' := fun hh => h hh.symm
  induction m with
  | nil => simp [dictInsert, dictGet, hk]
  | cons p rest ih =>
    obtain ⟨k0, v0⟩ := p
    by_cases h0 : k0 = k
    · subst h0
      simp [dictInsert, dictGet, hk]
    · simp [dictInsert, dictGet, h0, ih]

theorem mem_setInsert (s : List String) (x t : String) :
    t ∈ setInsert s x ↔ t = x ∨ t ∈ s := by
  unfold setInsert
  by_cases h : x ∈ s
  · simp only [if_pos h]
    constructor
    · intro ht; exact Or.inr ht
    · rintro (rfl | ht)
      · exact h
      · exact ht
  · simp only [if_neg h, List.mem_append, List.mem_singleton]
    tauto

theorem nodup_setInsert (s : List String) (x : String) (h : s.Nodup) :
    (setInsert s x).Nodup := by
  unfold setInsert
  by_cases hx : x ∈ s
  · simpa [hx] using h
  · simp only [if_neg hx]
    refine List.Nodup.append h (List.nodup_singleton x) ?_
    intro a ha hax
    rw [List.mem_singleton] at hax
    subst hax
    exact hx ha

theorem mem_addAll (s l : List String) (t : String) :
    t ∈ addAll s l ↔ t ∈ s ∨ t ∈ l := by
  induction l generalizing s with
  | nil => simp [addAll]
  | cons x xs ih =>
    show t ∈ addAll (setInsert s x) xs ↔ _
    rw [ih, mem_setInsert]
    simp only [List.mem_cons]
    tauto

theorem nodup_addAll (s l : List String) (h : s.Nodup) : (addAll s l).Nodup := by
  induction l generalizing s with
  | nil => exact h
  | cons x xs ih => exact ih _ (nodup_setInsert _ _ h)

/-! ### The sort order -/

theorem charListLe_total (as bs : List Char) :
    charListLe as bs = true ∨ charListLe bs as = true := by
  induction as generalizing bs with
  | nil => exact Or.inl rfl
  | cons a as ih =>
    cases bs with
    | nil => exact Or.inr rfl
    | cons b bs =>
      by_cases hab : a = b
      · subst hab
        simpa [charListLe] using ih bs
      · have hba : ¬b = a := fun hh => hab hh.symm
        rcases lt_trichotomy a b with h | h | h
        · exact Or.inl (by simp [charListLe, hab, h])
        · exact absurd h hab
        · exact Or.inr (by simp [charListLe, hba, h])

theorem charListLe_trans (as bs cs : List Char)
    (h1 : charListLe as bs = true) (h2 : charListLe bs cs = true) :
    charListLe as cs = true := by
  induction as generalizing bs cs with
  | nil => rfl
  | cons a as ih =>
    cases bs with
    | nil => simp [charListLe] at h1
    | cons b bs =>
      cases cs with
      | nil => simp [charListLe] at h2
      | cons c cs =>
        by_cases hab : a = b <;> by_cases hbc : b = c
        · subst hab; subst hbc
          simp only [charListLe, if_pos rfl] at h1 h2 ⊢
          exact ih bs cs h1 h2
        · subst hab
          simp only [charListLe, if_pos rfl, if_neg hbc] at h2 ⊢
          exact h2
        · subst hbc
          simp only [charListLe, if_pos rfl, if_neg hab] at h1 ⊢
          exact h1
        · simp only [charListLe, if_neg hab, if_neg hbc, decide_eq_true_eq] at h1 h2
          have hac : a < c := lt_trans h1 h2
          simp [charListLe, ne_of_lt hac, hac]

instance : IsTotal String lexLe :=
  ⟨fun a b => charListLe_total a.data b.data⟩

instance : IsTrans String lexLe :=
  ⟨fun a b c => charListLe_trans a.data b.data c.data⟩

theorem charListLe_eq_true_iff (as bs : List Char) :
    charListLe as bs = true ↔ ¬ List.Lex (· < ·) bs as := by
  induction as generalizing bs with
  | nil =>
    simp only [charListLe, true_iff]
    exact List.Lex.not_nil_right _ bs
  | cons a as ih =>
    cases bs with
    | nil =>
      constructor
      · intro h; simp [charListLe] at h
      · intro h; exact absurd List.Lex.nil h
    | cons b bs =>
      by_cases hab : a = b
      · subst hab
        have he : charListLe (a :: as) (a :: bs) = charListLe as bs := by
          simp [charListLe]
        rw [he, ih]
        constructor
        · intro h hl; exact h (List.Lex.cons_iff.mp hl)
        · intro h hl; exact h (List.Lex.cons hl)
      · simp only [charListLe, if_neg hab, decide_eq_true_eq]
        constructor
        · intro h hl
          cases hl with
          | cons h2 => exact hab rfl
          | rel h2 => exact absurd h (not_lt_of_gt h2)
        · intro h
          rcases lt_trichotomy a b with h2 | h2 | h2
          · exact h2
          · exact absurd h2 hab
          · exact absurd (List.Lex.rel h2) h

/-- The comparator agrees with the ambient lexicographic order on
character lists. -/
theorem charListLe_iff_le (as bs : List Char) :
    charListLe as bs = true ↔ as ≤ bs := by
  rw [charListLe_eq_true_iff]
  constructor
  · intro h
    exact not_lt.mp h
  · intro h
    exact not_lt.mpr h

/-- The Python sort order on tag names is the ambient lexicographic order on
strings. -/
theorem lexLe_iff_le (a b : String) : lexLe a b ↔ a ≤ b := by
  rw [String.le_iff_toList_le]
  exact charListLe_iff_le a.data b.data

/-! ### Tag-selection lemmas -/

/-- What one pattern selects from the listing: wildcard patterns select the
matching available tags, exact patterns select themselves when available. -/
def selPred (av : List String) (t p : String) : Prop :=
  if hasWildcard p then t ∈ av ∧ fnmatch t p = true else p = t ∧ p ∈ av

theorem mem_expandGo (av pats acc : List String) (t : String) :
    t ∈ expandGo av pats acc ↔ t ∈ acc ∨ ∃ p ∈ pats, selPred av t p := by
  induction pats generalizing acc with
  | nil => simp [expandGo]
  | cons p ps ih =>
    by_cases hw : hasWildcard p
    · rw [expandGo, if_pos hw, ih, mem_addAll]
      simp only [List.mem_filter, List.exists_mem_cons_iff, selPred, if_pos hw]
      tauto
    · by_cases hp : p ∈ av
      · rw [expandGo, if_neg hw, if_pos hp, ih]
        simp only [mem_setInsert, List.exists_mem_cons_iff, selPred, if_neg hw]
        constructor
        · rintro ((rfl | h) | h)
          · exact Or.inr (Or.inl ⟨rfl, hp⟩)
          · exact Or.inl h
          · exact Or.inr (Or.inr h)
        · rintro (h | (⟨rfl, _⟩ | h))
          · exact Or.inl (Or.inr h)
          · exact Or.inl (Or.inl rfl)
          · exact Or.inr h
      · rw [expandGo, if_neg hw, if_neg hp, ih]
        simp only [List.exists_mem_cons_iff, selPred, if_neg hw]
        constructor
        · rintro (h | h)
          · exact Or.inl h
          · exact Or.inr (Or.inr h)
        · rintro (h | (⟨rfl, hpa⟩ | h))
          · exact Or.inl h
          · exact absurd hpa hp
          · exact Or.inr h

theorem nodup_expandGo (av pats acc : List String) (h : acc.Nodup) :
    (expandGo av pats acc).Nodup := by
  induction pats generalizing acc with
  | nil => exact h
  | cons p ps ih =>
    by_cases hw : hasWildcard p
    · rw [expandGo, if_pos hw]
      exact ih _ (nodup_addAll _ _ h)
    · by_cases hp : p ∈ av
      · rw [expandGo, if_neg hw, if_pos hp]
        exact ih _ (nodup_setInsert _ _ h)
      · rw [expandGo, if_neg hw, if_neg hp]
        exact ih _ h

theorem mem_expand_wildcard_tags (av pats : List String) (t : String)
    (hne : pats ≠ []) :
    t ∈ expand_wildcard_tags av pats ↔ ∃ p ∈ pats, selPred av t p := by
  unfold expand_wildcard_tags
  rw [if_neg (by simpa using hne), mem_expandGo]
  simp

theorem expand_subset (av pats : List String) (t : String)
    (ht : t ∈ expand_wildcard_tags av pats) : t ∈ av := by
  unfold expand_wildcard_tags at ht
  by_cases he : pats.isEmpty
  · rwa [if_pos he] at ht
  · rw [if_neg he, mem_expandGo] at ht
    rcases ht with h | ⟨p, _, hp⟩
    · simp at h
    · unfold selPred at hp
      by_cases hw : hasWildcard p
      · rw [if_pos hw] at hp
        exact hp.1
      · rw [if_neg hw] at hp
        exact hp.1 ▸ hp.2

theorem baseTags_subset (reg : Registry) (e : RepoEntry) (t : String)
    (ht : t ∈ baseTags reg e) : t ∈ reg.tags e.name := by
  unfold baseTags at ht
  by_cases hs : specifiedTruthy e.tags
  · rw [if_pos hs] at ht
    exact expand_subset _ _ _ ht
  · rwa [if_neg hs] at ht

theorem tagsToCheck_subset (reg : Registry) (old_state : GlobalState)
    (e : RepoEntry) (t : String) (ht : t ∈ tagsToCheck reg old_state e) :
    t ∈ reg.tags e.name :=
  baseTags_subset reg e t (List.mem_filter.mp ht).1

theorem tagsToCheck_not_nf (reg : Registry) (old_state : GlobalState)
    (e : RepoEntry) (t : String) (ht : t ∈ tagsToCheck reg old_state e) :
    t ∉ (priorOf old_state e.name).not_found.dedup := by
  have h := (List.mem_filter.mp ht).2
  simpa using h

/-! ### Loop lemmas -/

theorem checkTags_nf_mem (reg : Registry) (r : String)
    (m : List (String × TagInfo)) (l : List String) (acc : LoopAcc) (t : String)
    (hinv : ∀ s ∈ l, s ∈ acc.new_not_found →
      ∀ i, reg.fetch r s ≠ FetchResult.found i) :
    t ∈ (checkTags reg r m l acc).new_not_found ↔
      t ∈ acc.new_not_found ∨ (t ∈ l ∧ reg.fetch r t = FetchResult.notFound) := by
  induction l generalizing acc with
  | nil => simp [checkTags]
  | cons x rest ih =>
    rw [checkTags]
    cases hfx : reg.fetch r x with
    | found i =>
      have hx : x ∉ acc.new_not_found := fun hx =>
        hinv x (List.mem_cons_self x rest) hx i hfx
      have hstep : checkTagStep reg r m acc x =
          ⟨dictInsert acc.new_repo_state x i, acc.new_not_found,
            match dictGet m x with
            | none => acc.updates ++ [Update.newTag r x i.digest]
            | some ot =>
              if i.digest ≠ ot.digest then
                acc.updates ++ [Update.updatedDigest r x i.digest ot.digest]
              else acc.updates⟩ := by
        simp [checkTagStep, hfx, hx]
      rw [hstep, ih]
      · constructor
        · rintro (h | h)
          · exact Or.inl h
          · exact Or.inr ⟨List.mem_cons_of_mem x h.1, h.2⟩
        · rintro (h | ⟨hm, hf⟩)
          · exact Or.inl h
          · rcases List.mem_cons.mp hm with rfl | hm2
            · rw [hfx] at hf; exact absurd hf (by simp)
            · exact Or.inr ⟨hm2, hf⟩
      · intro s hs hsn
        exact hinv s (List.mem_cons_of_mem x hs) hsn
    | notFound =>
      have hstep : checkTagStep reg r m acc x =
          ⟨acc.new_repo_state, setInsert acc.new_not_found x, acc.updates⟩ := by
        simp [checkTagStep, hfx]
      rw [hstep, ih]
      · simp only [mem_setInsert]
        constructor
        · rintro ((rfl | h) | ⟨hm, hf⟩)
          · exact Or.inr ⟨List.mem_cons_self _ _, hfx⟩
          · exact Or.inl h
          · exact Or.inr ⟨List.mem_cons_of_mem x hm, hf⟩
        · rintro (h | ⟨hm, hf⟩)
          · exact Or.inl (Or.inr h)
          · rcases List.mem_cons.mp hm with rfl | hm2
            · exact Or.inl (Or.inl rfl)
            · exact Or.inr ⟨hm2, hf⟩
      · intro s hs hsn
        rcases (mem_setInsert _ _ _).mp hsn with rfl | hsn2
        · intro i hi; rw [hfx] at hi; exact absurd hi (by simp)
        · exact hinv s (List.mem_cons_of_mem x hs) hsn2
    | unknown =>
      have hstep : checkTagStep reg r m acc x = acc := by
        simp [checkTagStep, hfx]
      rw [hstep, ih]
      · constructor
        · rintro (h | h)
          · exact Or.inl h
          · exact Or.inr ⟨List.mem_cons_of_mem x h.1, h.2⟩
        · rintro (h | ⟨hm, hf⟩)
          · exact Or.inl h
          · rcases List.mem_cons.mp hm with rfl | hm2
            · rw [hfx] at hf; exact absurd hf (by simp)
            · exact Or.inr ⟨hm2, hf⟩
      · intro s hs hsn
        exact hinv s (List.mem_cons_of_mem x hs) hsn

theorem checkTags_nf_nodup (reg : Registry) (r : String)
    (m : List (String × TagInfo)) (l : List String) (acc : LoopAcc)
    (h : acc.new_not_found.Nodup) :
    (checkTags reg r m l acc).new_not_found.Nodup := by
  induction l generalizing acc with
  | nil => exact h
  | cons x rest ih =>
    rw [checkTags]
    refine ih _ ?_
    cases hfx : reg.fetch r x with
    | found i =>
      have hs : (checkTagStep reg r m acc x).new_not_found =
          if x ∈ acc.new_not_found then acc.new_not_found.erase x
          else acc.new_not_found := by
        simp [checkTagStep, hfx]
      rw [hs]
      split
      · exact List.Nodup.erase _ h
      · exact h
    | notFound =>
      have hs : (checkTagStep reg r m acc x).new_not_found =
          setInsert acc.new_not_found x := by
        simp [checkTagStep, hfx]
      rw [hs]
      exact nodup_setInsert _ _ h
    | unknown =>
      have hs : (checkTagStep reg r m acc x).new_not_found =
          acc.new_not_found := by
        simp [checkTagStep, hfx]
      rw [hs]
      exact h

theorem checkTags_map_not_mem (reg : Registry) (r : String)
    (m : List (String × TagInfo)) (l : List String) (acc : LoopAcc)
    (t : String) (ht : t ∉ l) :
    dictGet (checkTags reg r m l acc).new_repo_state t =
      dictGet acc.new_repo_state t := by
  induction l generalizing acc with
  | nil => rfl
  | cons x rest ih =>
    have hne : t ≠ x := fun hh => ht (by rw [hh]; exact List.mem_cons_self x rest)
    have hrest : t ∉ rest := fun hh => ht (List.mem_cons_of_mem x hh)
    rw [checkTags, ih _ hrest]
    cases hfx : reg.fetch r x with
    | found i =>
      have hs : (checkTagStep reg r m acc x).new_repo_state =
          dictInsert acc.new_repo_state x i := by
        simp [checkTagStep, hfx]
      rw [hs, dictGet_insert_ne _ _ _ _ hne]
    | notFound =>
      have hs : (checkTagStep reg r m acc x).new_repo_state =
          acc.new_repo_state := by
        simp [checkTagStep, hfx]
      rw [hs]
    | unknown =>
      have hs : (checkTagStep reg r m acc x).new_repo_state =
          acc.new_repo_state := by
        simp [checkTagStep, hfx]
      rw [hs]

theorem checkTags_map_fetch_ne (reg : Registry) (r : String)
    (m : List (String × TagInfo)) (l : List String) (acc : LoopAcc)
    (t : String) (hf : ∀ i, reg.fetch r t ≠ FetchResult.found i) :
    dictGet (checkTags reg r m l acc).new_repo_state t =
      dictGet acc.new_repo_state t := by
  induction l generalizing acc with
  | nil => rfl
  | cons x rest ih =>
    rw [checkTags, ih]
    cases hfx : reg.fetch r x with
    | found i =>
      have hne : t ≠ x := fun hh => hf i (by rw [hh]; exact hfx)
      have hs : (checkTagStep reg r m acc x).new_repo_state =
          dictInsert acc.new_repo_state x i := by
        simp [checkTagStep, hfx]
      rw [hs, dictGet_insert_ne _ _ _ _ hne]
    | notFound =>
      have hs : (checkTagStep reg r m acc x).new_repo_state =
          acc.new_repo_state := by
        simp [checkTagStep, hfx]
      rw [hs]
    | unknown =>
      have hs : (checkTagStep reg r m acc x).new_repo_state =
          acc.new_repo_state := by
        simp [checkTagStep, hfx]
      rw [hs]

theorem checkTags_map_found (reg : Registry) (r : String)
    (m : List (String × TagInfo)) (l : List String) (acc : LoopAcc)
    (t : String) (i : TagInfo) (hfx : reg.fetch r t = FetchResult.found i) :
    t ∈ l → dictGet (checkTags reg r m l acc).new_repo_state t = some i := by
  induction l generalizing acc with
  | nil => intro ht; cases ht
  | cons x rest ih =>
    intro ht
    rw [checkTags]
    by_cases hr : t ∈ rest
    · exact ih _ hr
    · have hx : t = x := by
        rcases List.mem_cons.mp ht with h | h
        · exact h
        · exact absurd h hr
      subst hx
      rw [checkTags_map_not_mem _ _ _ _ _ _ hr]
      have hs : (checkTagStep reg r m acc t).new_repo_state =
          dictInsert acc.new_repo_state t i := by
        simp [checkTagStep, hfx]
      rw [hs, dictGet_insert_self]

theorem checkTagStep_ups_sub (reg : Registry) (r : String)
    (m : List (String × TagInfo)) (acc : LoopAcc) (x : String) (u : Update)
    (hu : u ∈ (checkTagStep reg r m acc x).updates) :
    u ∈ acc.updates ∨
      (u.repoOf = r ∧ u.tagOf = x ∧
        ∃ i, reg.fetch r x = FetchResult.found i) := by
  cases hfx : reg.fetch r x with
  | found i =>
    cases hold : dictGet m x with
    | none =>
      have hs : (checkTagStep reg r m acc x).updates =
          acc.updates ++ [Update.newTag r x i.digest] := by
        simp [checkTagStep, hfx, hold]
      rw [hs] at hu
      rcases List.mem_append.mp hu with h | h
      · exact Or.inl h
      · rw [List.mem_singleton] at h
        subst h
        exact Or.inr ⟨rfl, rfl, i, rfl⟩
    | some ot =>
      by_cases hd : i.digest ≠ ot.digest
      · have hs : (checkTagStep reg r m acc x).updates =
            acc.updates ++ [Update.updatedDigest r x i.digest ot.digest] := by
          simp [checkTagStep, hfx, hold, hd]
        rw [hs] at hu
        rcases List.mem_append.mp hu with h | h
        · exact Or.inl h
        · rw [List.mem_singleton] at h
          subst h
          exact Or.inr ⟨rfl, rfl, i, rfl⟩
      · have hs : (checkTagStep reg r m acc x).updates = acc.updates := by
          simp [checkTagStep, hfx, hold, hd]
        rw [hs] at hu
        exact Or.inl hu
  | notFound =>
    have hs : (checkTagStep reg r m acc x).updates = acc.updates := by
      simp [checkTagStep, hfx]
    rw [hs] at hu
    exact Or.inl hu
  | unknown =>
    have hs : (checkTagStep reg r m acc x).updates = acc.updates := by
      simp [checkTagStep, hfx]
    rw [hs] at hu
    exact Or.inl hu

theorem checkTags_ups_mem (reg : Registry) (r : String)
    (m : List (String × TagInfo)) (l : List String) (acc : LoopAcc) (u : Update)
    (hu : u ∈ (checkTags reg r m l acc).updates) :
    u ∈ acc.updates ∨
      (u.repoOf = r ∧ u.tagOf ∈ l ∧
        ∃ i, reg.fetch r u.tagOf = FetchResult.found i) := by
  induction l generalizing acc with
  | nil => exact Or.inl hu
  | cons x rest ih =>
    rw [checkTags] at hu
    rcases ih _ hu with h | h
    · rcases checkTagStep_ups_sub reg r m acc x u h with h2 | ⟨h2, h3, h4⟩
      · exact Or.inl h2
      · exact Or.inr ⟨h2, by rw [h3]; exact List.mem_cons_self x rest, by rw [h3]; exact h4⟩
    · exact Or.inr ⟨h.1, List.mem_cons_of_mem x h.2.1, h.2.2⟩

theorem checkTags_ups_stable (reg : Registry) (r : String)
    (m : List (String × TagInfo)) (l : List String) (acc : LoopAcc) :
    (∀ s ∈ l, ∀ i, reg.fetch r s = FetchResult.found i → dictGet m s = some i) →
    (checkTags reg r m l acc).updates = acc.updates := by
  induction l generalizing acc with
  | nil => intro _; rfl
  | cons x rest ih =>
    intro h
    rw [checkTags, ih _ (fun s hs => h s (List.mem_cons_of_mem x hs))]
    cases hfx : reg.fetch r x with
    | found i =>
      have hm : dictGet m x = some i := h x (List.mem_cons_self x rest) i hfx
      simp [checkTagStep, hfx, hm]
    | notFound => simp [checkTagStep, hfx]
    | unknown => simp [checkTagStep, hfx]

/-! ### Per-entry lemmas -/

/-- The tag loop of one repository entry, started on the prior state. -/
def entryLoop (reg : Registry) (old_state : GlobalState) (e : RepoEntry) :
    LoopAcc :=
  checkTags reg e.name (priorOf old_state e.name).tagMap
    (tagsToCheck reg old_state e)
    ⟨(priorOf old_state e.name).tagMap,
      (priorOf old_state e.name).not_found.dedup, []⟩

theorem checkRepoEntry_eq (reg : Registry) (old_state : GlobalState)
    (e : RepoEntry) :
    checkRepoEntry reg old_state e =
      (⟨(entryLoop reg old_state e).new_repo_state,
        List.insertionSort lexLe
          ((entryLoop reg old_state e).new_not_found.filter
            (fun t => (reg.tags e.name).contains t))⟩,
       (entryLoop reg old_state e).updates) := rfl

theorem entryLoop_hinv (reg : Registry) (old_state : GlobalState)
    (e : RepoEntry) :
    ∀ s ∈ tagsToCheck reg old_state e,
      s ∈ (priorOf old_state e.name).not_found.dedup →
      ∀ i, reg.fetch e.name s ≠ FetchResult.found i :=
  fun s hs hsn => absurd hsn (tagsToCheck_not_nf reg old_state e s hs)

theorem entryLoop_nf_mem (reg : Registry) (old_state : GlobalState)
    (e : RepoEntry) (t : String) :
    t ∈ (entryLoop reg old_state e).new_not_found ↔
      t ∈ (priorOf old_state e.name).not_found.dedup ∨
        (t ∈ tagsToCheck reg old_state e ∧
          reg.fetch e.name t = FetchResult.notFound) :=
  checkTags_nf_mem reg e.name (priorOf old_state e.name).tagMap
    (tagsToCheck reg old_state e) _ t (entryLoop_hinv reg old_state e)

theorem checkRepoEntry_nf_mem (reg : Registry) (old_state : GlobalState)
    (e : RepoEntry) (t : String) :
    t ∈ (checkRepoEntry reg old_state e).1.not_found ↔
      t ∈ reg.tags e.name ∧
        (t ∈ (priorOf old_state e.name).not_found.dedup ∨
          (t ∈ tagsToCheck reg old_state e ∧
            reg.fetch e.name t = FetchResult.notFound)) := by
  rw [checkRepoEntry_eq]
  simp only [List.mem_insertionSort, List.mem_filter, entryLoop_nf_mem,
    List.contains, List.elem_iff]
  tauto

theorem checkRepoEntry_map_found (reg : Registry) (old_state : GlobalState)
    (e : RepoEntry) (t : String) (i : TagInfo)
    (ht : t ∈ tagsToCheck reg old_state e)
    (hf : reg.fetch e.name t = FetchResult.found i) :
    dictGet (checkRepoEntry reg old_state e).1.tagMap t = some i := by
  rw [checkRepoEntry_eq]
  exact checkTags_map_found _ _ _ _ _ _ _ hf ht

theorem checkRepoEntry_map_not_mem (reg : Registry) (old_state : GlobalState)
    (e : RepoEntry) (t : String) (ht : t ∉ tagsToCheck reg old_state e) :
    dictGet (checkRepoEntry reg old_state e).1.tagMap t =
      dictGet (priorOf old_state e.name).tagMap t := by
  rw [checkRepoEntry_eq]
  exact checkTags_map_not_mem _ _ _ _ _ _ ht

theorem checkRepoEntry_map_fetch_ne (reg : Registry) (old_state : GlobalState)
    (e : RepoEntry) (t : String)
    (hf : ∀ i, reg.fetch e.name t ≠ FetchResult.found i) :
    dictGet (checkRepoEntry reg old_state e).1.tagMap t =
      dictGet (priorOf old_state e.name).tagMap t := by
  rw [checkRepoEntry_eq]
  exact checkTags_map_fetch_ne _ _ _ _ _ _ hf

theorem checkRepoEntry_ups_mem (reg : Registry) (old_state : GlobalState)
    (e : RepoEntry) (u : Update) (hu : u ∈ (checkRepoEntry reg old_state e).2) :
    u.repoOf = e.name ∧ u.tagOf ∈ tagsToCheck reg old_state e ∧
      ∃ i, reg.fetch e.name u.tagOf = FetchResult.found i := by
  rw [checkRepoEntry_eq] at hu
  rcases checkTags_ups_mem _ _ _ _ _ _ hu with h | h
  · cases h
  · exact h

theorem checkRepoEntry_ups_stable (reg : Registry) (old_state : GlobalState)
    (e : RepoEntry)
    (h : ∀ s ∈ tagsToCheck reg old_state e, ∀ i,
      reg.fetch e.name s = FetchResult.found i →
      dictGet (priorOf old_state e.name).tagMap s = some i) :
    (checkRepoEntry reg old_state e).2 = [] := by
  rw [checkRepoEntry_eq]
  exact checkTags_ups_stable _ _ _ _ _ h

theorem checkRepoEntry_nf_sorted (reg : Registry) (old_state : GlobalState)
    (e : RepoEntry) :
    List.Sorted lexLe (checkRepoEntry reg old_state e).1.not_found ∧
      (checkRepoEntry reg old_state e).1.not_found.Nodup := by
  rw [checkRepoEntry_eq]
  constructor
  · exact List.sorted_insertionSort lexLe _
  · refine (List.perm_insertionSort lexLe _).nodup_iff.mpr ?_
    refine List.Nodup.filter _ ?_
    exact checkTags_nf_nodup _ _ _ _ _ (List.nodup_dedup _)

theorem expandGo_nil_av (pats acc : List String) :
    expandGo [] pats acc = acc := by
  induction pats generalizing acc with
  | nil => rfl
  | cons p ps ih =>
    by_cases hw : hasWildcard p
    · rw [expandGo, if_pos hw]
      simpa [addAll] using ih acc
    · rw [expandGo, if_neg hw, if_neg (by simp)]
      exact ih acc

theorem expand_nil_av (pats : List String) :
    expand_wildcard_tags [] pats = [] := by
  unfold expand_wildcard_tags
  by_cases he : pats.isEmpty
  · rw [if_pos he]
  · rw [if_neg he, expandGo_nil_av]

/-- On a failed (empty) tag listing the entry contributes its prior tag map
unchanged, an emptied not-found list, and no events. -/
theorem checkRepoEntry_empty_tags (reg : Registry) (old_state : GlobalState)
    (e : RepoEntry) (h : reg.tags e.name = []) :
    checkRepoEntry reg old_state e =
      (⟨(priorOf old_state e.name).tagMap, []⟩, []) := by
  have hbase : baseTags reg e = [] := by
    unfold baseTags
    rw [h]
    by_cases hs : specifiedTruthy e.tags
    · rw [if_pos hs, expand_nil_av]
    · rw [if_neg hs]
  have hcheck : tagsToCheck reg old_state e = [] := by
    unfold tagsToCheck
    rw [hbase]
    rfl
  rw [checkRepoEntry_eq]
  unfold entryLoop
  rw [hcheck, h]
  simp [checkTags, List.filter]

/-! ### Repository-loop lemmas -/

/-- The change events contributed by each entry, in order. -/
def updatesOf (reg : Registry) (old_state : GlobalState) :
    List RepoEntry → List Update
  | [] => []
  | e :: rest =>
    (checkRepoEntry reg old_state e).2 ++ updatesOf reg old_state rest

theorem checkImagesGo_ups (reg : Registry) (old_state : GlobalState)
    (l : List RepoEntry) (ns : GlobalState) (ups : List Update) :
    (checkImagesGo reg old_state l ns ups).2 =
      ups ++ updatesOf reg old_state l := by
  induction l generalizing ns ups with
  | nil => simp [checkImagesGo, updatesOf]
  | cons e rest ih =>
    rw [checkImagesGo, ih, updatesOf]
    simp [List.append_assoc]

theorem check_images_ups (reg : Registry) (repos : List RepoEntry)
    (old_state : GlobalState) :
    (check_images reg repos old_state).2 = updatesOf reg old_state repos := by
  unfold check_images
  rw [checkImagesGo_ups]
  rfl

theorem updatesOf_mem (reg : Registry) (old_state : GlobalState)
    (l : List RepoEntry) (u : Update) (hu : u ∈ updatesOf reg old_state l) :
    ∃ e ∈ l, u ∈ (checkRepoEntry reg old_state e).2 := by
  induction l with
  | nil => cases hu
  | cons e rest ih =>
    rw [updatesOf] at hu
    rcases List.mem_append.mp hu with h | h
    · exact ⟨e, List.mem_cons_self _ _, h⟩
    · obtain ⟨e2, he2, hm⟩ := ih h
      exact ⟨e2, List.mem_cons_of_mem _ he2, hm⟩

theorem checkImagesGo_get_not_mem (reg : Registry) (old_state : GlobalState)
    (l : List RepoEntry) (r : String) :
    r ∉ l.map RepoEntry.name → ∀ ns ups,
    dictGet (checkImagesGo reg old_state l ns ups).1 r = dictGet ns r := by
  induction l with
  | nil => intro _ ns ups; rfl
  | cons e rest ih =>
    intro hr ns ups
    have hne : r ≠ e.name := fun hh => hr (by rw [hh]; simp)
    have hrest : r ∉ rest.map RepoEntry.name := fun hh => hr (by simp; tauto)
    rw [checkImagesGo, ih hrest, dictGet_insert_ne _ _ _ _ hne]

theorem checkImagesGo_get_some (reg : Registry) (old_state : GlobalState)
    (l : List RepoEntry) (r : String) (s : RepoState) :
    ∀ ns ups, dictGet (checkImagesGo reg old_state l ns ups).1 r = some s →
    dictGet ns r = some s ∨
      ∃ e ∈ l, e.name = r ∧ s = (checkRepoEntry reg old_state e).1 := by
  induction l with
  | nil => intro ns ups h; exact Or.inl h
  | cons e rest ih =>
    intro ns ups h
    rw [checkImagesGo] at h
    rcases ih _ _ h with h2 | h2
    · by_cases he : e.name = r
      · subst he
        rw [dictGet_insert_self] at h2
        exact Or.inr ⟨e, List.mem_cons_self _ _, rfl,
          (Option.some.inj h2).symm⟩
      · rw [dictGet_insert_ne _ _ _ _ (fun hh => he hh.symm)] at h2
        exact Or.inl h2
    · obtain ⟨e2, he2, hn, hs⟩ := h2
      exact Or.inr ⟨e2, List.mem_cons_of_mem _ he2, hn, hs⟩

theorem check_images_get_some (reg : Registry) (repos : List RepoEntry)
    (old_state : GlobalState) (r : String) (s : RepoState)
    (h : dictGet (check_images reg repos old_state).1 r = some s) :
    ∃ e ∈ repos, e.name = r ∧ s = (checkRepoEntry reg old_state e).1 := by
  unfold check_images at h
  rcases checkImagesGo_get_some reg old_state repos r s [] [] h with h2 | h2
  · cases h2
  · exact h2

theorem checkImagesGo_get_nodup (reg : Registry) (old_state : GlobalState)
    (l : List RepoEntry) (e : RepoEntry) :
    (l.map RepoEntry.name).Nodup → e ∈ l → ∀ ns ups,
    dictGet (checkImagesGo reg old_state l ns ups).1 e.name =
      some (checkRepoEntry reg old_state e).1 := by
  induction l with
  | nil => intro _ he; cases he
  | cons x rest ih =>
    intro hnd he ns ups
    rw [checkImagesGo]
    rcases List.mem_cons.mp he with rfl | hm
    · have hnm : e.name ∉ rest.map RepoEntry.name := by
        have := List.nodup_cons.mp hnd
        simpa using this.1
      rw [checkImagesGo_get_not_mem reg old_state rest e.name hnm]
      exact dictGet_insert_self _ _ _
    · exact ih (List.nodup_cons.mp hnd).2 hm _ _

theorem check_images_get_nodup (reg : Registry) (repos : List RepoEntry)
    (old_state : GlobalState) (e : RepoEntry)
    (hnd : (repos.map RepoEntry.name).Nodup) (he : e ∈ repos) :
    dictGet (check_images reg repos old_state).1 e.name =
      some (checkRepoEntry reg old_state e).1 :=
  checkImagesGo_get_nodup reg old_state repos e hnd he [] []

theorem mem_tagsToCheck_iff (reg : Registry) (old_state : GlobalState)
    (e : RepoEntry) (t : String) :
    t ∈ tagsToCheck reg old_state e ↔
      t ∈ baseTags reg e ∧
        t ∉ (priorOf old_state e.name).not_found.dedup := by
  unfold tagsToCheck
  rw [List.mem_filter]
  simp [List.contains, List.elem_iff]

theorem updatesOf_nil (reg : Registry) (old_state : GlobalState)
    (l : List RepoEntry) (h : ∀ e ∈ l, (checkRepoEntry reg old_state e).2 = []) :
    updatesOf reg old_state l = [] := by
  induction l with
  | nil => rfl
  | cons e rest ih =>
    rw [updatesOf, h e (List.mem_cons_self _ _),
      ih (fun e2 he2 => h e2 (List.mem_cons_of_mem _ he2))]
    rfl

/-! ### The claims -/

/-- C7: with a non-empty pattern list, `expand_wildcard_tags` returns exactly
the union over the patterns of the available tags glob-matching each wildcard
pattern and of each exact pattern that occurs in the listing, with duplicates
removed; an exact pattern absent from the listing is silently dropped. -/
theorem c7_expand_wildcard_tags_spec (av pats : List String) (hne : pats ≠ []) :
    (∀ t, t ∈ expand_wildcard_tags av pats ↔
      ∃ p ∈ pats,
        (hasWildcard p = true ∧ t ∈ av ∧ fnmatch t p = true) ∨
        (hasWildcard p = false ∧ p = t ∧ p ∈ av)) ∧
    (expand_wildcard_tags av pats).Nodup := by
  constructor
  · intro t
    rw [mem_expand_wildcard_tags av pats t hne]
    constructor
    · rintro ⟨p, hp, hsel⟩
      refine ⟨p, hp, ?_⟩
      unfold selPred at hsel
      by_cases hw : hasWildcard p = true
      · rw [if_pos hw] at hsel
        exact Or.inl ⟨hw, hsel⟩
      · rw [if_neg hw] at hsel
        exact Or.inr ⟨Bool.eq_false_iff.mpr hw, hsel⟩
    · rintro ⟨p, hp, hsel⟩
      refine ⟨p, hp, ?_⟩
      unfold selPred
      rcases hsel with ⟨hw, hm, hf⟩ | ⟨hw, he, hm⟩
      · rw [if_pos hw]
        exact ⟨hm, hf⟩
      · rw [if_neg (by rw [hw]; exact Bool.false_ne_true)]
        exact ⟨he, hm⟩
  · unfold expand_wildcard_tags
    rw [if_neg (by simpa using hne)]
    exact nodup_expandGo av pats [] List.nodup_nil

/-- C7 witness: the spec example, pattern `ltsc2022-*` against
`[ltsc2022-a, other-b]`. -/
theorem c7_witness :
    (["ltsc2022-*"] ≠ ([] : List String)) ∧
    ((∀ t, t ∈ expand_wildcard_tags ["ltsc2022-a", "other-b"] ["ltsc2022-*"] ↔
      ∃ p ∈ ["ltsc2022-*"],
        (hasWildcard p = true ∧ t ∈ ["ltsc2022-a", "other-b"] ∧
          fnmatch t p = true) ∨
        (hasWildcard p = false ∧ p = t ∧ p ∈ ["ltsc2022-a", "other-b"])) ∧
    (expand_wildcard_tags ["ltsc2022-a", "other-b"] ["ltsc2022-*"]).Nodup) :=
  ⟨by decide, c7_expand_wildcard_tags_spec _ _ (by decide)⟩

/-- C6: a tag recorded as not-found that has disappeared from the current
listing is pruned from the repository's stored not-found list, generates no
change event for that repository, and is never selected for a metadata
query. -/
theorem c6_pruning (reg : Registry) (repos : List RepoEntry)
    (old_state : GlobalState) (e : RepoEntry) (t : String)
    (he : e ∈ repos)
    (hnf : t ∈ (priorOf old_state e.name).not_found)
    (hav : t ∉ reg.tags e.name) :
    (∀ s, dictGet (check_images reg repos old_state).1 e.name = some s →
      t ∉ s.not_found) ∧
    (∀ u ∈ (check_images reg repos old_state).2,
      ¬(u.repoOf = e.name ∧ u.tagOf = t)) ∧
    (∀ e2 ∈ repos, e2.name = e.name → t ∉ tagsToCheck reg old_state e2) := by
  have hskip : ∀ e2 : RepoEntry, e2.name = e.name →
      t ∉ tagsToCheck reg old_state e2 := by
    intro e2 hname ht
    have h2 := (mem_tagsToCheck_iff reg old_state e2 t).mp ht
    rw [hname] at h2
    exact h2.2 (List.mem_dedup.mpr hnf)
  refine ⟨?_, ?_, fun e2 _ hname => hskip e2 hname⟩
  · intro s hs htn
    obtain ⟨e2, _, hname, rfl⟩ :=
      check_images_get_some reg repos old_state e.name s hs
    have h2 := (checkRepoEntry_nf_mem reg old_state e2 t).mp htn
    rw [hname] at h2
    exact hav h2.1
  · rintro u hu ⟨hr, ht⟩
    rw [check_images_ups] at hu
    obtain ⟨e2, _, hm⟩ := updatesOf_mem reg old_state repos u hu
    obtain ⟨hrepo, htag, _⟩ := checkRepoEntry_ups_mem reg old_state e2 u hm
    rw [hr] at hrepo
    rw [ht] at htag
    exact hskip e2 hrepo.symm htag

def regC6w : Registry where
  tags := fun _ => ["u"]
  fetch := fun _ _ => FetchResult.found ⟨some "du", none⟩

def oldC6w : GlobalState := [("r", ⟨[], ["t"]⟩)]

/-- C6 witness: a not-found tag `t` gone from the listing is pruned with no
event and no query. -/
theorem c6_witness :
    ((⟨"r", none⟩ : RepoEntry) ∈ [(⟨"r", none⟩ : RepoEntry)] ∧
      "t" ∈ (priorOf oldC6w "r").not_found ∧
      "t" ∉ regC6w.tags "r") ∧
    ((∀ s, dictGet (check_images regC6w [⟨"r", none⟩] oldC6w).1 "r" = some s →
      "t" ∉ s.not_found) ∧
    (∀ u ∈ (check_images regC6w [⟨"r", none⟩] oldC6w).2,
      ¬(u.repoOf = "r" ∧ u.tagOf = "t")) ∧
    (∀ e2 ∈ [(⟨"r", none⟩ : RepoEntry)], e2.name = "r" →
      "t" ∉ tagsToCheck regC6w oldC6w e2)) :=
  ⟨⟨by decide, by decide, by decide⟩,
    c6_pruning regC6w [⟨"r", none⟩] oldC6w ⟨"r", none⟩ "t"
      (by decide) (by decide) (by decide)⟩

/-- C8: a tag with a prior TagInfo entry that is not in the selected/checked
set of any entry for its repository keeps its prior TagInfo value unchanged
in the new state. -/
theorem c8_frame (reg : Registry) (repos : List RepoEntry)
    (old_state : GlobalState) (r t : String) (v : TagInfo)
    (hv : dictGet (priorOf old_state r).tagMap t = some v)
    (hsel : ∀ e ∈ repos, e.name = r → t ∉ tagsToCheck reg old_state e) :
    ∀ s, dictGet (check_images reg repos old_state).1 r = some s →
      dictGet s.tagMap t = some v := by
  intro s hs
  obtain ⟨e, he, hname, rfl⟩ := check_images_get_some reg repos old_state r s hs
  rw [checkRepoEntry_map_not_mem reg old_state e t (hsel e he hname), hname]
  exact hv

def regC8w : Registry where
  tags := fun _ => ["x"]
  fetch := fun _ _ => FetchResult.found ⟨some "dx", none⟩

def oldC8w : GlobalState := [("r", ⟨[("t", ⟨some "d", none⟩)], []⟩)]

/-- C8 witness: narrowing the selector to `x` leaves the unevaluated tag `t`
untouched. -/
theorem c8_witness :
    (dictGet (priorOf oldC8w "r").tagMap "t" = some ⟨some "d", none⟩ ∧
      (∀ e ∈ [(⟨"r", some ["x"]⟩ : RepoEntry)], e.name = "r" →
        "t" ∉ tagsToCheck regC8w oldC8w e)) ∧
    (∀ s, dictGet (check_images regC8w [⟨"r", some ["x"]⟩] oldC8w).1 "r" =
        some s → dictGet s.tagMap "t" = some ⟨some "d", none⟩) :=
  ⟨⟨by decide, by decide⟩,
    c8_frame regC8w [⟨"r", some ["x"]⟩] oldC8w "r" "t" ⟨some "d", none⟩
      (by decide) (by decide)⟩

/-- C10: every repository entry of the state returned by `check_images`
stores its not-found record as a duplicate-free list sorted in ascending
lexical order (the field is always written, even when empty), so the stored
representation is canonical for the set. -/
theorem c10_not_found_sorted (reg : Registry) (repos : List RepoEntry)
    (old_state : GlobalState) :
    ∀ r s, dictGet (check_images reg repos old_state).1 r = some s →
      List.Sorted (· ≤ ·) s.not_found ∧ s.not_found.Nodup := by
  intro r s hs
  obtain ⟨e, _, _, rfl⟩ := check_images_get_some reg repos old_state r s hs
  have h := checkRepoEntry_nf_sorted reg old_state e
  exact ⟨h.1.imp (fun hab => (lexLe_iff_le _ _).mp hab), h.2⟩

def regC10w : Registry where
  tags := fun _ => ["b", "a"]
  fetch := fun _ _ => FetchResult.notFound

/-- C10 witness: two 404s observed in reverse order are stored sorted. -/
theorem c10_witness :
    (dictGet (check_images regC10w [⟨"r", none⟩] []).1 "r" =
      some ⟨[], ["a", "b"]⟩) ∧
    (List.Sorted (· ≤ ·) (⟨[], ["a", "b"]⟩ : RepoState).not_found ∧
      (⟨[], ["a", "b"]⟩ : RepoState).not_found.Nodup) :=
  ⟨by decide,
    c10_not_found_sorted regC10w [⟨"r", none⟩] [] "r" ⟨[], ["a", "b"]⟩
      (by decide)⟩

def regC2x : Registry where
  tags := fun _ => ["t"]
  fetch := fun _ _ => FetchResult.found ⟨some "d", none⟩

def oldC2x : GlobalState := [("r", ⟨[], ["t"]⟩)]

/-- C2: evaluation at the failing input.  Tag `t` sits in the prior
not-found list, reappears in the listing, and would fetch successfully, yet
the filter on line 137 removes it from `tags_to_check`, so it is never
re-queried: it stays in `not_found`, never enters the tag map, and no event
is emitted — the unreachable removal branch on lines 147-150 notwithstanding. -/
theorem c2_reappearance_eval :
    tagsToCheck regC2x oldC2x ⟨"r", none⟩ = [] ∧
    regC2x.fetch "r" "t" = FetchResult.found ⟨some "d", none⟩ ∧
    "t" ∈ regC2x.tags "r" ∧
    check_images regC2x [⟨"r", none⟩] oldC2x = ([("r", ⟨[], ["t"]⟩)], []) := by
  refine ⟨?_, ?_, ?_, ?_⟩ <;> decide

def regC1x : Registry where
  tags := fun _ => ["t"]
  fetch := fun _ _ => FetchResult.notFound

def oldC1x : GlobalState := [("r", ⟨[("t", ⟨some "d", none⟩)], []⟩)]

/-- C1 counterexample: tag `t` has a prior TagInfo entry, is queried this
run, and fetches NOT_FOUND; the run adds it to `not_found` but the copied
prior TagInfo entry is never deleted, so both hold at once in the new
state. -/
theorem c1_counterexample :
    "t" ∈ tagsToCheck regC1x oldC1x ⟨"r", none⟩ ∧
    regC1x.fetch "r" "t" = FetchResult.notFound ∧
    dictGet (check_images regC1x [⟨"r", none⟩] oldC1x).1 "r" =
      some ⟨[("t", ⟨some "d", none⟩)], ["t"]⟩ := by
  refine ⟨?_, ?_, ?_⟩ <;> decide

/-- C1 amended: the exclusivity invariant holds provided the prior state
already satisfies it and no tag queried this run both carries a prior
TagInfo entry and fetches NOT_FOUND (the code copies every prior tag entry
forward and never deletes one, so such a tag ends up in both structures). -/
theorem c1_amended (reg : Registry) (repos : List RepoEntry)
    (old_state : GlobalState)
    (hwf : ∀ e ∈ repos, ∀ t ∈ (priorOf old_state e.name).not_found,
      dictGet (priorOf old_state e.name).tagMap t = none)
    (h404 : ∀ e ∈ repos, ∀ t ∈ tagsToCheck reg old_state e,
      reg.fetch e.name t = FetchResult.notFound →
      dictGet (priorOf old_state e.name).tagMap t = none) :
    ∀ r s, dictGet (check_images reg repos old_state).1 r = some s →
      ∀ t ∈ s.not_found, dictGet s.tagMap t = none := by
  intro r s hs t htn
  obtain ⟨e, he, _, rfl⟩ := check_images_get_some reg repos old_state r s hs
  rw [checkRepoEntry_nf_mem] at htn
  rcases htn.2 with hprior | ⟨hchk, h4⟩
  · have hnm : t ∉ tagsToCheck reg old_state e := fun hm =>
      tagsToCheck_not_nf reg old_state e t hm hprior
    rw [checkRepoEntry_map_not_mem reg old_state e t hnm]
    exact hwf e he t (List.mem_dedup.mp hprior)
  · rw [checkRepoEntry_map_fetch_ne reg old_state e t
      (fun i hi => by rw [h4] at hi; exact FetchResult.noConfusion hi)]
    exact h404 e he t hchk h4

def regC1w : Registry where
  tags := fun _ => ["t", "u"]
  fetch := fun _ tag =>
    if tag = "u" then FetchResult.found ⟨some "du", none⟩
    else FetchResult.notFound

def oldC1w : GlobalState := [("r", ⟨[("u", ⟨some "d0", none⟩)], []⟩)]

/-- C1 witness: with a prior state whose 404-ing tags carry no TagInfo, the
exclusivity invariant holds after the run. -/
theorem c1_witness :
    ((∀ e ∈ [(⟨"r", none⟩ : RepoEntry)],
        ∀ t ∈ (priorOf oldC1w e.name).not_found,
        dictGet (priorOf oldC1w e.name).tagMap t = none) ∧
      (∀ e ∈ [(⟨"r", none⟩ : RepoEntry)],
        ∀ t ∈ tagsToCheck regC1w oldC1w e,
        regC1w.fetch e.name t = FetchResult.notFound →
        dictGet (priorOf oldC1w e.name).tagMap t = none)) ∧
    (∀ r s, dictGet (check_images regC1w [⟨"r", none⟩] oldC1w).1 r = some s →
      ∀ t ∈ s.not_found, dictGet s.tagMap t = none) :=
  ⟨⟨by decide, by decide⟩,
    c1_amended regC1w [⟨"r", none⟩] oldC1w (by decide) (by decide)⟩

def regC3x : Registry where
  tags := fun _ => ["t"]
  fetch := fun _ _ => FetchResult.unknown

def oldC3x : GlobalState := [("r", ⟨[("t", ⟨some "d", none⟩)], []⟩)]

/-- C3 counterexample: a candidate tag whose fetch is the non-404 failure
keeps its carried-over prior TagInfo entry in the new state, so it is not
absent from the TagInfo map. -/
theorem c3_counterexample :
    "t" ∈ tagsToCheck regC3x oldC3x ⟨"r", none⟩ ∧
    regC3x.fetch "r" "t" = FetchResult.unknown ∧
    dictGet (check_images regC3x [⟨"r", none⟩] oldC3x).1 "r" =
      some ⟨[("t", ⟨some "d", none⟩)], []⟩ := by
  refine ⟨?_, ?_, ?_⟩ <;> decide

/-- C3 amended: a candidate tag whose fetch fails with the non-404 sentinel
is not added to not_found, gets no new TagInfo recorded and no event, and
its prior map entry (if any) is carried forward unchanged; it is absent from
both structures only when it had no prior TagInfo entry. -/
theorem c3_amended (reg : Registry) (repos : List RepoEntry)
    (old_state : GlobalState) (e : RepoEntry) (t : String)
    (he : e ∈ repos)
    (hcand : t ∈ tagsToCheck reg old_state e)
    (hu : reg.fetch e.name t = FetchResult.unknown) :
    (∀ s, dictGet (check_images reg repos old_state).1 e.name = some s →
      dictGet s.tagMap t = dictGet (priorOf old_state e.name).tagMap t ∧
        t ∉ s.not_found) ∧
    (∀ u ∈ (check_images reg repos old_state).2,
      ¬(u.repoOf = e.name ∧ u.tagOf = t)) := by
  constructor
  · intro s hs
    obtain ⟨e2, _, hname, rfl⟩ :=
      check_images_get_some reg repos old_state e.name s hs
    constructor
    · rw [checkRepoEntry_map_fetch_ne reg old_state e2 t
        (fun i hi => by rw [hname, hu] at hi; exact FetchResult.noConfusion hi),
        hname]
    · intro htn
      have h2 := (checkRepoEntry_nf_mem reg old_state e2 t).mp htn
      rcases h2.2 with hprior | ⟨_, h4⟩
      · rw [hname] at hprior
        exact tagsToCheck_not_nf reg old_state e t hcand hprior
      · rw [hname, hu] at h4
        exact FetchResult.noConfusion h4
  · rintro u hu2 ⟨hr, ht⟩
    rw [check_images_ups] at hu2
    obtain ⟨e2, _, hm⟩ := updatesOf_mem reg old_state repos u hu2
    obtain ⟨hrepo, _, i, hf⟩ := checkRepoEntry_ups_mem reg old_state e2 u hm
    rw [hr] at hrepo
    rw [ht, hrepo.symm] at hf
    rw [hu] at hf
    exact FetchResult.noConfusion hf

def regC3w : Registry where
  tags := fun _ => ["t"]
  fetch := fun _ _ => FetchResult.unknown

def oldC3w : GlobalState := []

/-- C3 witness: an unknown-failing candidate with no prior entry is dropped
from both structures with no event. -/
theorem c3_witness :
    ((⟨"r", none⟩ : RepoEntry) ∈ [(⟨"r", none⟩ : RepoEntry)] ∧
      "t" ∈ tagsToCheck regC3w oldC3w ⟨"r", none⟩ ∧
      regC3w.fetch "r" "t" = FetchResult.unknown) ∧
    ((∀ s, dictGet (check_images regC3w [⟨"r", none⟩] oldC3w).1 "r" = some s →
      dictGet s.tagMap "t" = dictGet (priorOf oldC3w "r").tagMap "t" ∧
        "t" ∉ s.not_found) ∧
    (∀ u ∈ (check_images regC3w [⟨"r", none⟩] oldC3w).2,
      ¬(u.repoOf = "r" ∧ u.tagOf = "t"))) :=
  ⟨⟨by decide, by decide, by decide⟩,
    c3_amended regC3w [⟨"r", none⟩] oldC3w ⟨"r", none⟩ "t"
      (by decide) (by decide) (by decide)⟩

def regC4x : Registry where
  tags := fun _ => []
  fetch := fun _ _ => FetchResult.unknown

def oldC4x : GlobalState := [("r", ⟨[("t", ⟨some "d", none⟩)], ["u"]⟩)]

/-- C4 counterexample: when the tag listing comes back empty (the failure
sentinel), the final prune intersects the prior not-found set with the empty
listing, so `u` is erased from `not_found` instead of preserved. -/
theorem c4_counterexample :
    "u" ∈ (priorOf oldC4x "r").not_found ∧
    regC4x.tags "r" = [] ∧
    dictGet (check_images regC4x [⟨"r", none⟩] oldC4x).1 "r" =
      some ⟨[("t", ⟨some "d", none⟩)], []⟩ := by
  refine ⟨?_, ?_, ?_⟩ <;> decide

/-- C4 amended: a repository whose tag listing fails contributes its prior
tag map unchanged and no change events, and every other entry is processed
normally (reconciliation is total and per-entry); however its not_found set
is emptied by the availability prune, not preserved. -/
theorem c4_amended (reg : Registry) (repos : List RepoEntry)
    (old_state : GlobalState) (e : RepoEntry)
    (he : e ∈ repos) (hfail : reg.tags e.name = []) :
    (∀ s, dictGet (check_images reg repos old_state).1 e.name = some s →
      s = ⟨(priorOf old_state e.name).tagMap, []⟩) ∧
    (∀ u ∈ (check_images reg repos old_state).2, u.repoOf ≠ e.name) := by
  constructor
  · intro s hs
    obtain ⟨e2, _, hname, rfl⟩ :=
      check_images_get_some reg repos old_state e.name s hs
    rw [checkRepoEntry_empty_tags reg old_state e2 (by rw [hname]; exact hfail),
      hname]
  · intro u hu hr
    rw [check_images_ups] at hu
    obtain ⟨e2, _, hm⟩ := updatesOf_mem reg old_state repos u hu
    obtain ⟨hrepo, _, _⟩ := checkRepoEntry_ups_mem reg old_state e2 u hm
    have hname : e2.name = e.name := by rw [← hrepo, hr]
    rw [checkRepoEntry_empty_tags reg old_state e2 (by rw [hname]; exact hfail)]
      at hm
    cases hm

def regC4w : Registry where
  tags := fun _ => []
  fetch := fun _ _ => FetchResult.unknown

def oldC4w : GlobalState := [("r", ⟨[("t", ⟨some "d", none⟩)], ["u"]⟩)]

/-- C4 witness. -/
theorem c4_witness :
    ((⟨"r", none⟩ : RepoEntry) ∈ [(⟨"r", none⟩ : RepoEntry)] ∧
      regC4w.tags "r" = []) ∧
    ((∀ s, dictGet (check_images regC4w [⟨"r", none⟩] oldC4w).1 "r" = some s →
      s = ⟨(priorOf oldC4w "r").tagMap, []⟩) ∧
    (∀ u ∈ (check_images regC4w [⟨"r", none⟩] oldC4w).2, u.repoOf ≠ "r")) :=
  ⟨⟨by decide, by decide⟩,
    c4_amended regC4w [⟨"r", none⟩] oldC4w ⟨"r", none⟩ (by decide) (by decide)⟩

def regC5x : Registry where
  tags := fun _ => ["a", "b"]
  fetch := fun _ t =>
    if t = "a" then FetchResult.found ⟨some "da", none⟩
    else FetchResult.found ⟨some "db", none⟩

def reposC5x : List RepoEntry := [⟨"r", some ["a"]⟩, ⟨"r", some ["b"]⟩]

/-- C5 counterexample: with two entries for the same repository name (each
selecting a different tag) and unchanged upstream data, the second entry's
state overwrites the first's, so tag `a` is missing from the persisted state
and the second run re-emits its NEW event — the change list is not empty. -/
theorem c5_counterexample :
    (check_images regC5x reposC5x (check_images regC5x reposC5x []).1).2 =
      [Update.newTag "r" "a" (some "da")] := by
  decide

/-- C5 amended: idempotence holds when the repository names in the config
are pairwise distinct: rerunning reconciliation on its own output with
unchanged upstream data yields no change events.  (With duplicate names a
later entry's state overwrites an earlier entry's, which can re-emit
events.) -/
theorem c5_idempotent (reg : Registry) (repos : List RepoEntry)
    (old_state : GlobalState)
    (hnd : (repos.map RepoEntry.name).Nodup) :
    (check_images reg repos (check_images reg repos old_state).1).2 = [] := by
  rw [check_images_ups]
  refine updatesOf_nil reg _ repos (fun e he => ?_)
  refine checkRepoEntry_ups_stable reg _ e (fun s hs i hf => ?_)
  have hS := check_images_get_nodup reg repos old_state e hnd he
  have hprior : priorOf (check_images reg repos old_state).1 e.name =
      (checkRepoEntry reg old_state e).1 := by
    unfold priorOf
    rw [hS]
    rfl
  have h1 := (mem_tagsToCheck_iff reg (check_images reg repos old_state).1
    e s).mp hs
  have hold : s ∈ tagsToCheck reg old_state e := by
    rw [mem_tagsToCheck_iff]
    refine ⟨h1.1, fun hdedup => h1.2 ?_⟩
    rw [hprior, List.mem_dedup, checkRepoEntry_nf_mem]
    exact ⟨baseTags_subset reg e s h1.1, Or.inl hdedup⟩
  rw [hprior]
  exact checkRepoEntry_map_found reg old_state e s i hold hf

def regC5w : Registry where
  tags := fun _ => ["t"]
  fetch := fun _ _ => FetchResult.found ⟨some "d", none⟩

/-- C5 witness: a distinct-name run is idempotent. -/
theorem c5_witness :
    (([(⟨"r", none⟩ : RepoEntry)].map RepoEntry.name).Nodup ∧
    (check_images regC5w [⟨"r", none⟩]
      (check_images regC5w [⟨"r", none⟩] []).1).2 = []) :=
  ⟨by decide, c5_idempotent regC5w [⟨"r", none⟩] [] (by decide)⟩

/-! ### Configuration loading and the main entry point -/

/-- JSON values as `json.load` produces them (numbers restricted to the
integers, which is all the schema uses). -/
inductive JValue where
  | null
  | bool (b : Bool)
  | num (n : Int)
  | str (s : String)
  | arr (xs : List JValue)
  | obj (kvs : List (String × JValue))

/-- A normalized config entry `{"name": ..., "tags": ...}` as `load_config`
builds it; the code does not constrain the types of the two values. -/
structure ConfigEntry where
  name : JValue
  tags : JValue

/-- The normalization loop of `load_config`: a string entry becomes
`{"name": entry, "tags": None}`, a dict entry bearing `"name"` keeps its
`"name"` and optional `"tags"` values, and anything else raises. -/
def normalizeEntries : List JValue → Except String (List ConfigEntry)
  | [] => Except.ok []
  | JValue.str s :: rest =>
    (normalizeEntries rest).map (fun l => ⟨JValue.str s, JValue.null⟩ :: l)
  | JValue.obj kvs :: rest =>
    match dictGet kvs "name" with
    | some nv =>
      (normalizeEntries rest).map
        (fun l => ⟨nv, (dictGet kvs "tags").getD JValue.null⟩ :: l)
    | none =>
      Except.error
        "Each repo entry must be a string or a dict with at least a 'name' key."
  | _ :: _ =>
    Except.error
      "Each repo entry must be a string or a dict with at least a 'name' key."

/-- `load_config` after `json.load`: reads `data.get("repos")` (an
`AttributeError` on a non-object document also propagates as a failure),
raises unless the value is truthy and a list (i.e. a non-empty array), then
normalizes the entries. -/
def load_config (data : JValue) : Except String (List ConfigEntry) :=
  match data with
  | JValue.obj kvs =>
    match (dictGet kvs "repos").getD JValue.null with
    | JValue.arr (e :: es) => normalizeEntries (e :: es)
    | _ =>
      Except.error
        "Config file must contain a 'repos' key with a list of repository names or objects."
  | _ => Except.error "AttributeError"

/-- The externally visible I/O steps of a run, in order. -/
inductive Effect where
  | loadStateEff
  | listTagsEff (repo : String)
  | fetchTagEff (repo tag : String)
  | saveStateEff
deriving DecidableEq, Repr

/-- Registry calls one repository entry performs: the tag listing, then one
manifest fetch per selected tag surviving the not-found filter. -/
def repoTrace (reg : Registry) (old_state : GlobalState) (e : RepoEntry) :
    List Effect :=
  Effect.listTagsEff e.name ::
    (tagsToCheck reg old_state e).map (Effect.fetchTagEff e.name)

/-- Registry calls of the whole `check_images` run. -/
def runTrace (reg : Registry) (old_state : GlobalState) :
    List RepoEntry → List Effect
  | [] => []
  | e :: rest => repoTrace reg old_state e ++ runTrace reg old_state rest

/-- Conversion of a normalized config entry to the entry `check_images`
consumes.  The model restricts repository names and tag patterns to strings
and tag selectors to arrays or None — the shapes every well-formed
configuration produces (other JSON values would flow through Python's
f-strings and iteration untyped). -/
def toRepoEntry (c : ConfigEntry) : RepoEntry :=
  ⟨(match c.name with
    | JValue.str s => s
    | _ => ""),
   (match c.tags with
    | JValue.arr xs =>
      some (xs.map (fun v =>
        match v with
        | JValue.str s => s
        | _ => ""))
    | _ => none)⟩

/-- `main(config_path, state_file)` as its effect trace plus the state it
writes: a config-loading failure is printed and the function returns before
the state read, any registry call, and the state write; otherwise the run
reads state, reconciles, and writes the new state. -/
def mainEffects (cfg : JValue) (reg : Registry) (stored : GlobalState) :
    List Effect × Option GlobalState :=
  match load_config cfg with
  | Except.error _ => ([], none)
  | Except.ok entries =>
    let repos := entries.map toRepoEntry
    (Effect.loadStateEff :: (runTrace reg stored repos ++ [Effect.saveStateEff]),
     some (check_images reg repos stored).1)

theorem normalizeEntries_error (entries : List JValue) (en : JValue)
    (hen : en ∈ entries)
    (hs : ∀ s, en ≠ JValue.str s)
    (ho : ∀ kvs2, en = JValue.obj kvs2 → dictGet kvs2 "name" = none) :
    ∃ msg, normalizeEntries entries = Except.error msg := by
  induction entries with
  | nil => cases hen
  | cons x rest ih =>
    rcases List.mem_cons.mp hen with rfl | hm
    · cases hx : en with
      | str s => exact absurd hx (hs s)
      | obj kvs2 =>
        subst hx
        rw [normalizeEntries, ho kvs2 rfl]
        exact ⟨_, rfl⟩
      | null => subst hx; exact ⟨_, rfl⟩
      | bool b => subst hx; exact ⟨_, rfl⟩
      | num n => subst hx; exact ⟨_, rfl⟩
      | arr xs => subst hx; exact ⟨_, rfl⟩
    · obtain ⟨msg, hmsg⟩ := ih hm
      cases hx : x with
      | str s =>
        rw [normalizeEntries, hmsg]
        exact ⟨msg, rfl⟩
      | obj kvs2 =>
        rw [normalizeEntries]
        cases hname : dictGet kvs2 "name" with
        | some nv =>
          rw [hmsg]
          exact ⟨msg, rfl⟩
        | none => exact ⟨_, rfl⟩
      | null => exact ⟨_, rfl⟩
      | bool b => exact ⟨_, rfl⟩
      | num n => exact ⟨_, rfl⟩
      | arr xs => exact ⟨_, rfl⟩

/-- C9: a configuration missing the `repos` key, carrying an empty or
non-list `repos` value, or containing an entry that is neither a string nor
a name-bearing object makes `load_config` raise; run through `main`, the
failure is reported and the run ends with no state read, no registry call,
and no state write. -/
theorem c9_config_errors (data : JValue) (reg : Registry)
    (stored : GlobalState)
    (h : (∃ kvs, data = JValue.obj kvs ∧ dictGet kvs "repos" = none) ∨
      (∃ kvs v, data = JValue.obj kvs ∧ dictGet kvs "repos" = some v ∧
        (v = JValue.arr [] ∨ ∀ xs, v ≠ JValue.arr xs)) ∨
      (∃ kvs entries en, data = JValue.obj kvs ∧
        dictGet kvs "repos" = some (JValue.arr entries) ∧ en ∈ entries ∧
        (∀ s, en ≠ JValue.str s) ∧
        (∀ kvs2, en = JValue.obj kvs2 → dictGet kvs2 "name" = none))) :
    (∃ msg, load_config data = Except.error msg) ∧
    mainEffects data reg stored = ([], none) := by
  have herr : ∃ msg, load_config data = Except.error msg := by
    rcases h with ⟨kvs, rfl, hget⟩ | ⟨kvs, v, rfl, hget, hv⟩ |
      ⟨kvs, entries, en, rfl, hget, hen, hs, ho⟩
    · rw [load_config, hget]
      exact ⟨_, rfl⟩
    · rw [load_config, hget]
      rcases hv with rfl | hv
      · exact ⟨_, rfl⟩
      · cases v with
        | arr xs =>
          cases xs with
          | nil => exact ⟨_, rfl⟩
          | cons x rest => exact absurd rfl (hv (x :: rest))
        | null => exact ⟨_, rfl⟩
        | bool b => exact ⟨_, rfl⟩
        | num n => exact ⟨_, rfl⟩
        | str s => exact ⟨_, rfl⟩
        | obj kvs2 => exact ⟨_, rfl⟩
    · rw [load_config, hget]
      cases entries with
      | nil => cases hen
      | cons x rest => exact normalizeEntries_error (x :: rest) en hen hs ho
  refine ⟨herr, ?_⟩
  obtain ⟨msg, hmsg⟩ := herr
  rw [mainEffects, hmsg]

def regC9w : Registry where
  tags := fun _ => ["t"]
  fetch := fun _ _ => FetchResult.notFound

/-- C9 witness: the empty JSON object is missing `repos`; `load_config`
raises and `main` performs no I/O. -/
theorem c9_witness :
    ((∃ kvs, JValue.obj [] = JValue.obj kvs ∧ dictGet kvs "repos" = none) ∨
      (∃ kvs v, JValue.obj [] = JValue.obj kvs ∧
        dictGet kvs "repos" = some v ∧
        (v = JValue.arr [] ∨ ∀ xs, v ≠ JValue.arr xs)) ∨
      (∃ kvs entries en, JValue.obj [] = JValue.obj kvs ∧
        dictGet kvs "repos" = some (JValue.arr entries) ∧ en ∈ entries ∧
        (∀ s, en ≠ JValue.str s) ∧
        (∀ kvs2, en = JValue.obj kvs2 → dictGet kvs2 "name" = none))) ∧
    ((∃ msg, load_config (JValue.obj []) = Except.error msg) ∧
      mainEffects (JValue.obj []) regC9w [] = ([], none)) :=
  ⟨Or.inl ⟨[], rfl, rfl⟩,
    c9_config_errors (JValue.obj []) regC9w [] (Or.inl ⟨[], rfl, rfl⟩)⟩
